import Mathlib

/-
Verification of the cost-allocation core of the Sainsbury's Splitter
(src/split.py).

The core consists of the discount helper `discounted_price`, the
"Finalise Split" handler (which accumulates each participant's exact
fractional share across all items and then rounds each participant's
total once to integer pennies), and the Splitwise payload builder
`create_splitwise_expense`.

Modelling choices: Python float arithmetic is embedded exactly over ℚ;
Python's builtin `round` is round-half-to-even, embedded as `pyRound`.
The Finalise handler reads each item's price together with its
participant-assignment list (from `st.session_state.assignments`); an
item is embedded as that pair.
-/

namespace Splitter

/-- The fixed roster, from `PEOPLE = ["Joe", "Nic", "Nat"]` in src/split.py. -/
def PEOPLE : List String := ["Joe", "Nic", "Nat"]

/-- Embedding of `discounted_price(price, apply_15, extra_discount)`
(src/split.py lines 93-99): multiply by 0.85 when the flat discount is on,
then, when `extra_discount > 0`, multiply by `(1 - extra_discount / 100)`.
No rounding. -/
def discounted_price (price : ℚ) (apply_15 : Bool) (extra_discount : ℚ) : ℚ :=
  let p := price
  let p := if apply_15 then p * (85 / 100) else p
  let p := if extra_discount > 0 then p * (1 - extra_discount / 100) else p
  p

/-- Python's builtin `round` to an integer: round half to even. The fractional
part `q - ⌊q⌋` decides: below a half round down, above a half round up, exactly
a half round to the even neighbour. -/
def pyRound (q : ℚ) : ℤ :=
  if q - ⌊q⌋ < 1 / 2 then ⌊q⌋
  else if 1 / 2 < q - ⌊q⌋ then ⌊q⌋ + 1
  else if ⌊q⌋ % 2 = 0 then ⌊q⌋ else ⌊q⌋ + 1

/-- One line item as the Finalise Split handler consumes it: the (possibly
edited) price and the participant list assigned at the Split step
(`st.session_state.assignments[item_id]`). -/
structure LineItem where
  price : ℚ
  split : List String
deriving DecidableEq

/-- One iteration of the Finalise Split loop (src/split.py lines 386-394):
skip the item when its assignment list is empty, otherwise credit each
person in the list with `discounted_price(price) / len(split)`. -/
def finaliseStep (apply_15 : Bool) (extra_discount : ℚ)
    (totals : String → ℚ) (item : LineItem) : String → ℚ :=
  if item.split.isEmpty then totals
  else
    let price := discounted_price item.price apply_15 extra_discount
    let share := price / (item.split.length : ℚ)
    item.split.foldl (fun t person => Function.update t person (t person + share)) totals

/-- The `exact_totals` accumulator of the Finalise Split handler
(src/split.py lines 385-394), starting from 0 for everyone. -/
def exact_totals (items : List LineItem) (apply_15 : Bool) (extra_discount : ℚ) :
    String → ℚ :=
  items.foldl (finaliseStep apply_15 extra_discount) (fun _ => 0)

/-- `final_totals = {p: round(v * 100) for p, v in exact_totals.items()}`
(src/split.py line 395): each participant's exact pound total, converted to
pennies and rounded once at the end. -/
def final_totals (items : List LineItem) (apply_15 : Bool) (extra_discount : ℚ)
    (person : String) : ℤ :=
  pyRound (exact_totals items apply_15 extra_discount person * 100)

/-- `grand = sum(final_totals.values())` (src/split.py line 402): the keys of
`final_totals` are exactly the roster. -/
def grand_total (items : List LineItem) (apply_15 : Bool) (extra_discount : ℚ) : ℤ :=
  (PEOPLE.map (final_totals items apply_15 extra_discount)).sum

/-- The specification's conservation reference value: the sum, over items with a
non-empty participant set, of the discounted price rounded to integer pennies.
This follows the spec's words (per-item rounding), to be compared with the
code's round-at-the-end `grand_total`. -/
def specRoundedItemTotal (items : List LineItem) (apply_15 : Bool) (extra_discount : ℚ) : ℤ :=
  ((items.filter fun i => !i.split.isEmpty).map
    fun i => pyRound (discounted_price i.price apply_15 extra_discount * 100)).sum

/-- One per-user share record of the Splitwise payload: user id, paid share and
owed share, with the monetary strings `f"{pennies / 100:.2f}"` represented by
the exact rational `pennies / 100`. -/
structure UserShare where
  user_id : String
  paid_share : ℚ
  owed_share : ℚ
deriving DecidableEq

/-- Embedding of the per-user share entries built by `create_splitwise_expense`
(src/split.py lines 101-131): the payer comes first with
`paid_share = total_amount` and `owed_share = final_totals[payer] / 100`; every
other roster member follows in roster order with `paid_share = "0.00"` and
`owed_share = final_totals[person] / 100`. -/
def create_splitwise_expense (total_pennies : ℤ) (payer : String)
    (ft : String → ℤ) : List UserShare :=
  { user_id := payer, paid_share := (total_pennies : ℚ) / 100,
    owed_share := (ft payer : ℚ) / 100 }
  :: (PEOPLE.filter fun person => person ≠ payer).map
      fun person =>
        { user_id := person, paid_share := 0, owed_share := (ft person : ℚ) / 100 }

/-- Variant of the Finalise Split loop step in which the division by
`len(split)` is guarded: it fails (returns `none`) when the division would be
reached with a zero divisor. Used to show that because empty assignment lists
are skipped first, the failure is unreachable. -/
def finaliseStepChecked (apply_15 : Bool) (extra_discount : ℚ)
    (totals : String → ℚ) (item : LineItem) : Option (String → ℚ) :=
  if item.split.isEmpty then some totals
  else if item.split.length = 0 then none
  else
    let price := discounted_price item.price apply_15 extra_discount
    let share := price / (item.split.length : ℚ)
    some (item.split.foldl (fun t person => Function.update t person (t person + share)) totals)

/-- The Finalise Split accumulation run with the guarded step. -/
def exact_totalsChecked (items : List LineItem) (apply_15 : Bool) (extra_discount : ℚ) :
    Option (String → ℚ) :=
  items.foldlM (finaliseStepChecked apply_15 extra_discount) (fun _ => 0)

/-- The contribution of a single item to one participant's exact total: zero
when the item is skipped, otherwise the per-head share times the number of
occurrences of the participant in the assignment list. -/
def itemShare (apply_15 : Bool) (extra_discount : ℚ) (person : String)
    (item : LineItem) : ℚ :=
  if item.split.isEmpty then 0
  else discounted_price item.price apply_15 extra_discount / (item.split.length : ℚ)
        * (item.split.count person : ℚ)

lemma foldl_update_apply (share : ℚ) (split : List String) (t : String → ℚ) (p : String) :
    (split.foldl (fun t q => Function.update t q (t q + share)) t) p
      = t p + share * (split.count p : ℚ) := by
  induction split generalizing t with
  | nil => simp
  | cons q rest ih =>
    simp only [List.foldl_cons, ih, List.count_cons, Function.update_apply, beq_iff_eq]
    by_cases h : q = p
    · subst h
      simp only [if_pos rfl]
      push_cast
      ring
    · have h2 : p ≠ q := fun hpq => h hpq.symm
      simp only [if_neg h2, if_neg h, add_zero]

lemma finaliseStep_apply (apply_15 : Bool) (extra_discount : ℚ) (t : String → ℚ)
    (item : LineItem) (p : String) :
    finaliseStep apply_15 extra_discount t item p
      = t p + itemShare apply_15 extra_discount p item := by
  unfold finaliseStep itemShare
  by_cases h : item.split.isEmpty
  · simp [h]
  · simp only [h, Bool.false_eq_true, if_false, foldl_update_apply]

lemma exact_totals_eq (items : List LineItem) (apply_15 : Bool) (extra_discount : ℚ)
    (p : String) :
    exact_totals items apply_15 extra_discount p
      = (items.map (itemShare apply_15 extra_discount p)).sum := by
  suffices h : ∀ t : String → ℚ,
      (items.foldl (finaliseStep apply_15 extra_discount) t) p
        = t p + (items.map (itemShare apply_15 extra_discount p)).sum by
    simpa [exact_totals] using h (fun _ => 0)
  induction items with
  | nil => intro t; simp
  | cons i rest ih =>
    intro t
    simp only [List.foldl_cons, List.map_cons, List.sum_cons, ih, finaliseStep_apply]
    ring

lemma pyRound_intCast (n : ℤ) : pyRound (n : ℚ) = n := by
  unfold pyRound
  simp [Int.floor_intCast]

lemma pyRound_nonneg (q : ℚ) (h : 0 ≤ q) : 0 ≤ pyRound q := by
  have hf : 0 ≤ ⌊q⌋ := Int.floor_nonneg.mpr h
  unfold pyRound
  split_ifs <;> omega

lemma abs_pyRound_sub (q : ℚ) : |(pyRound q : ℚ) - q| ≤ 1 / 2 := by
  have h0 : (0 : ℚ) ≤ q - ⌊q⌋ := by
    rw [Int.self_sub_floor]
    exact Int.fract_nonneg q
  have h1 : q - ⌊q⌋ < 1 := by
    rw [Int.self_sub_floor]
    exact Int.fract_lt_one q
  unfold pyRound
  split_ifs with hlt hgt heven
  · rw [abs_le]
    constructor <;> linarith
  · rw [abs_le]
    constructor <;> push_cast <;> linarith
  · rw [abs_le]
    have hge := le_of_not_lt hlt
    have hle := le_of_not_lt hgt
    constructor <;> linarith
  · rw [abs_le]
    have hge := le_of_not_lt hlt
    have hle := le_of_not_lt hgt
    constructor <;> push_cast <;> linarith

lemma list_pyRound_sum_bound (l : List ℚ) :
    |(((l.map pyRound).sum : ℤ) : ℚ) - l.sum| ≤ (l.length : ℚ) / 2 := by
  induction l with
  | nil => simp
  | cons q rest ih =>
    have h := abs_pyRound_sub q
    rw [abs_le] at h ih ⊢
    simp only [List.map_cons, List.sum_cons, List.length_cons, Int.cast_add,
      Nat.cast_add, Nat.cast_one]
    constructor <;> linarith [h.1, h.2, ih.1, ih.2]

lemma count_sum_people (split : List String) :
    (∀ x ∈ split, x ∈ PEOPLE) →
    (split.count "Joe" : ℚ) + (split.count "Nic" : ℚ) + (split.count "Nat" : ℚ)
      = (split.length : ℚ) := by
  induction split with
  | nil => intro _; simp
  | cons x rest ih =>
    intro h
    have hx := h x (List.mem_cons_self x rest)
    have hrest := ih fun y hy => h y (List.mem_cons_of_mem x hy)
    simp only [PEOPLE, List.mem_cons, List.not_mem_nil, or_false] at hx
    rcases hx with hx | hx | hx <;> subst hx <;>
      simp only [List.count_cons, List.length_cons] <;> push_cast <;>
      simp <;> linarith [hrest]

lemma itemShare_people_sum (apply_15 : Bool) (extra_discount : ℚ) (i : LineItem)
    (h : ∀ x ∈ i.split, x ∈ PEOPLE) :
    itemShare apply_15 extra_discount "Joe" i + itemShare apply_15 extra_discount "Nic" i
        + itemShare apply_15 extra_discount "Nat" i
      = if i.split.isEmpty then 0
        else discounted_price i.price apply_15 extra_discount := by
  unfold itemShare
  cases hemp : i.split.isEmpty with
  | true => simp
  | false =>
    simp only [Bool.false_eq_true, if_false]
    have hne : i.split ≠ [] := by simpa [List.isEmpty_iff] using hemp
    have hlen0 : i.split.length ≠ 0 := fun hh => hne (List.length_eq_zero.mp hh)
    have hlen : (i.split.length : ℚ) ≠ 0 := Nat.cast_ne_zero.mpr hlen0
    have hc := count_sum_people i.split h
    field_simp
    linear_combination discounted_price i.price apply_15 extra_discount * hc

lemma exact_people_sum (items : List LineItem) (apply_15 : Bool) (extra_discount : ℚ) :
    (∀ i ∈ items, ∀ x ∈ i.split, x ∈ PEOPLE) →
    exact_totals items apply_15 extra_discount "Joe"
        + exact_totals items apply_15 extra_discount "Nic"
        + exact_totals items apply_15 extra_discount "Nat"
      = ((items.filter fun i => !i.split.isEmpty).map
          fun i => discounted_price i.price apply_15 extra_discount).sum := by
  simp only [exact_totals_eq]
  induction items with
  | nil => intro _; simp
  | cons i rest ih =>
    intro h
    have hi := itemShare_people_sum apply_15 extra_discount i
      (h i (List.mem_cons_self i rest))
    have hr := ih fun j hj => h j (List.mem_cons_of_mem i hj)
    simp only [List.map_cons, List.sum_cons, List.filter_cons]
    cases hemp : i.split.isEmpty with
    | true =>
      simp only [hemp, if_true] at hi
      simp only [hemp, Bool.not_true, Bool.false_eq_true, if_false]
      linarith
    | false =>
      simp only [hemp, Bool.false_eq_true, if_false] at hi
      simp only [hemp, Bool.not_false, if_true, List.map_cons, List.sum_cons]
      linarith

lemma grand_total_eq (items : List LineItem) (apply_15 : Bool) (extra_discount : ℚ) :
    grand_total items apply_15 extra_discount
      = final_totals items apply_15 extra_discount "Joe"
        + final_totals items apply_15 extra_discount "Nic"
        + final_totals items apply_15 extra_discount "Nat" := by
  simp only [grand_total, PEOPLE, List.map_cons, List.map_nil, List.sum_cons,
    List.sum_nil]
  omega

lemma grand_total_bound (items : List LineItem) (apply_15 : Bool) (extra_discount : ℚ)
    (h : ∀ i ∈ items, ∀ x ∈ i.split, x ∈ PEOPLE) :
    |(grand_total items apply_15 extra_discount : ℚ)
        - 100 * ((items.filter fun i => !i.split.isEmpty).map
            fun i => discounted_price i.price apply_15 extra_discount).sum|
      ≤ 3 / 2 := by
  have hJ := abs_pyRound_sub (exact_totals items apply_15 extra_discount "Joe" * 100)
  have hN := abs_pyRound_sub (exact_totals items apply_15 extra_discount "Nic" * 100)
  have hT := abs_pyRound_sub (exact_totals items apply_15 extra_discount "Nat" * 100)
  have hs := exact_people_sum items apply_15 extra_discount h
  rw [abs_le] at hJ hN hT ⊢
  rw [grand_total_eq]
  unfold final_totals
  push_cast
  constructor <;> linarith [hJ.1, hJ.2, hN.1, hN.2, hT.1, hT.2]

lemma spec_total_bound (items : List LineItem) (apply_15 : Bool) (extra_discount : ℚ) :
    |(specRoundedItemTotal items apply_15 extra_discount : ℚ)
        - 100 * ((items.filter fun i => !i.split.isEmpty).map
            fun i => discounted_price i.price apply_15 extra_discount).sum|
      ≤ ((items.filter fun i => !i.split.isEmpty).length : ℚ) / 2 := by
  have h := list_pyRound_sum_bound
    ((items.filter fun i => !i.split.isEmpty).map
      fun i => discounted_price i.price apply_15 extra_discount * 100)
  rw [List.map_map, List.length_map] at h
  have hsum : ((items.filter fun i => !i.split.isEmpty).map
      fun i => discounted_price i.price apply_15 extra_discount * 100).sum
      = ((items.filter fun i => !i.split.isEmpty).map
          fun i => discounted_price i.price apply_15 extra_discount).sum * 100 := by
    generalize (items.filter fun i => !i.split.isEmpty) = l
    induction l with
    | nil => simp
    | cons x rest ihl =>
      simp only [List.map_cons, List.sum_cons, ihl]
      ring
  rw [hsum] at h
  simp only [Function.comp_def] at h
  rw [show (100 : ℚ) * ((items.filter fun i => !i.split.isEmpty).map
      fun i => discounted_price i.price apply_15 extra_discount).sum
    = ((items.filter fun i => !i.split.isEmpty).map
        fun i => discounted_price i.price apply_15 extra_discount).sum * 100 from
    mul_comm _ _]
  exact h

lemma discounted_price_eq (price extra_discount : ℚ) (apply_15 : Bool)
    (he : 0 ≤ extra_discount) :
    discounted_price price apply_15 extra_discount
      = price * (if apply_15 then (85 : ℚ) / 100 else 1) * (1 - extra_discount / 100) := by
  rcases eq_or_lt_of_le he with hzero | hpos
  · rw [← hzero]
    simp only [discounted_price]
    cases apply_15 <;> simp
  · simp only [discounted_price, if_pos hpos]
    cases apply_15 <;> simp

lemma discounted_price_nonneg (price extra_discount : ℚ) (apply_15 : Bool)
    (hp : 0 ≤ price) (he0 : 0 ≤ extra_discount) (he1 : extra_discount ≤ 100) :
    0 ≤ discounted_price price apply_15 extra_discount := by
  rw [discounted_price_eq price extra_discount apply_15 he0]
  apply mul_nonneg (mul_nonneg hp ?_) ?_
  · cases apply_15 <;> norm_num
  · linarith

/-- Claim C1 (corrected). The claimed penny-exact conservation does not hold:
the Finalise Split handler rounds once per participant at the end, not once per
item, so the sum of the finalised totals can differ from the sum of the
per-item rounded discounted prices. What does hold is the bound proved here:
over the roster, the grand total differs from the spec's per-item rounded sum
by at most half a penny per roster member (3/2) plus half a penny per item
with a non-empty participant set. -/
theorem conservation_bound (items : List LineItem) (apply_15 : Bool) (extra_discount : ℚ)
    (h : ∀ i ∈ items, ∀ x ∈ i.split, x ∈ PEOPLE) :
    |(grand_total items apply_15 extra_discount : ℚ)
        - (specRoundedItemTotal items apply_15 extra_discount : ℚ)|
      ≤ 3 / 2 + ((items.filter fun i => !i.split.isEmpty).length : ℚ) / 2 := by
  have h1 := grand_total_bound items apply_15 extra_discount h
  have h2 := spec_total_bound items apply_15 extra_discount
  rw [abs_le] at h1 h2 ⊢
  constructor <;> linarith [h1.1, h1.2, h2.1, h2.2]

/-- Witness for C1: the bound instantiated at the one-penny item shared by the
whole roster. -/
theorem conservation_bound_witness :
    |(grand_total [⟨1 / 100, PEOPLE⟩] false 0 : ℚ)
        - (specRoundedItemTotal [⟨1 / 100, PEOPLE⟩] false 0 : ℚ)|
      ≤ 3 / 2 + ((([⟨1 / 100, PEOPLE⟩] : List LineItem).filter
          fun i => !i.split.isEmpty).length : ℚ) / 2 :=
  conservation_bound [⟨1 / 100, PEOPLE⟩] false 0 (by
    intro i hi x hx
    rw [List.mem_singleton] at hi
    subst hi
    exact hx)

/-- Counterexample to C1 as stated: for the single item (0.01, {Joe, Nic, Nat})
with no discounts, the finalised totals sum to 0 pennies while the per-item
rounded sum is 1 penny. -/
theorem conservation_counterexample :
    grand_total [⟨1 / 100, PEOPLE⟩] false 0
      ≠ specRoundedItemTotal [⟨1 / 100, PEOPLE⟩] false 0 := by
  have hJ : exact_totals [⟨1 / 100, PEOPLE⟩] false 0 "Joe" = 1 / 300 := by
    simp [exact_totals_eq, itemShare, PEOPLE, discounted_price, List.count_cons,
      List.count_nil]
    norm_num
  have hN : exact_totals [⟨1 / 100, PEOPLE⟩] false 0 "Nic" = 1 / 300 := by
    simp [exact_totals_eq, itemShare, PEOPLE, discounted_price, List.count_cons,
      List.count_nil]
    norm_num
  have hT : exact_totals [⟨1 / 100, PEOPLE⟩] false 0 "Nat" = 1 / 300 := by
    simp [exact_totals_eq, itemShare, PEOPLE, discounted_price, List.count_cons,
      List.count_nil]
    norm_num
  have hg : grand_total [⟨1 / 100, PEOPLE⟩] false 0 = 0 := by
    rw [grand_total_eq]
    unfold final_totals
    rw [hJ, hN, hT]
    norm_num [pyRound]
  have hs : specRoundedItemTotal [⟨1 / 100, PEOPLE⟩] false 0 = 1 := by
    norm_num [specRoundedItemTotal, PEOPLE, discounted_price, pyRound]
  rw [hg, hs]
  omega

/-- Counterexample to C2 as stated: allocating the single item
(0.01, {Joe, Nic, Nat}) with no discounts does not give any participant the
odd penny; the totals sum to 0, not 1. -/
theorem penny_remainder_counterexample :
    grand_total [⟨1 / 100, PEOPLE⟩] false 0 ≠ 1 := by
  have hJ : exact_totals [⟨1 / 100, PEOPLE⟩] false 0 "Joe" = 1 / 300 := by
    simp [exact_totals_eq, itemShare, PEOPLE, discounted_price, List.count_cons,
      List.count_nil]
    norm_num
  have hN : exact_totals [⟨1 / 100, PEOPLE⟩] false 0 "Nic" = 1 / 300 := by
    simp [exact_totals_eq, itemShare, PEOPLE, discounted_price, List.count_cons,
      List.count_nil]
    norm_num
  have hT : exact_totals [⟨1 / 100, PEOPLE⟩] false 0 "Nat" = 1 / 300 := by
    simp [exact_totals_eq, itemShare, PEOPLE, discounted_price, List.count_cons,
      List.count_nil]
    norm_num
  have hg : grand_total [⟨1 / 100, PEOPLE⟩] false 0 = 0 := by
    rw [grand_total_eq]
    unfold final_totals
    rw [hJ, hN, hT]
    norm_num [pyRound]
  rw [hg]
  omega

/-- Claim C2 (corrected). Allocating the single item (0.01, {Joe, Nic, Nat})
with no discounts gives every participant 0 pennies and a grand total of 0:
each exact share is a third of a penny, and the round-at-the-end step rounds
each participant's third of a penny down to zero, so the odd penny is dropped
rather than assigned to one participant. -/
theorem penny_item_all_zero :
    final_totals [⟨1 / 100, PEOPLE⟩] false 0 "Joe" = 0
      ∧ final_totals [⟨1 / 100, PEOPLE⟩] false 0 "Nic" = 0
      ∧ final_totals [⟨1 / 100, PEOPLE⟩] false 0 "Nat" = 0
      ∧ grand_total [⟨1 / 100, PEOPLE⟩] false 0 = 0 := by
  have hJ : exact_totals [⟨1 / 100, PEOPLE⟩] false 0 "Joe" = 1 / 300 := by
    simp [exact_totals_eq, itemShare, PEOPLE, discounted_price, List.count_cons,
      List.count_nil]
    norm_num
  have hN : exact_totals [⟨1 / 100, PEOPLE⟩] false 0 "Nic" = 1 / 300 := by
    simp [exact_totals_eq, itemShare, PEOPLE, discounted_price, List.count_cons,
      List.count_nil]
    norm_num
  have hT : exact_totals [⟨1 / 100, PEOPLE⟩] false 0 "Nat" = 1 / 300 := by
    simp [exact_totals_eq, itemShare, PEOPLE, discounted_price, List.count_cons,
      List.count_nil]
    norm_num
  have fJ : final_totals [⟨1 / 100, PEOPLE⟩] false 0 "Joe" = 0 := by
    unfold final_totals
    rw [hJ]
    norm_num [pyRound]
  have fN : final_totals [⟨1 / 100, PEOPLE⟩] false 0 "Nic" = 0 := by
    unfold final_totals
    rw [hN]
    norm_num [pyRound]
  have fT : final_totals [⟨1 / 100, PEOPLE⟩] false 0 "Nat" = 0 := by
    unfold final_totals
    rw [hT]
    norm_num [pyRound]
  refine ⟨fJ, fN, fT, ?_⟩
  rw [grand_total_eq, fJ, fN, fT]
  norm_num

/-- Claim C4 (confirmed). For items [(3.00, {Joe, Nic, Nat}), (2.00, {Joe})]
with the 15% flat discount on and no extra discount, the finalised totals are
Joe = 255, Nic = 85, Nat = 85 pennies and the grand total is 425 pennies. -/
theorem scenario_totals :
    final_totals [⟨3, PEOPLE⟩, ⟨2, ["Joe"]⟩] true 0 "Joe" = 255
      ∧ final_totals [⟨3, PEOPLE⟩, ⟨2, ["Joe"]⟩] true 0 "Nic" = 85
      ∧ final_totals [⟨3, PEOPLE⟩, ⟨2, ["Joe"]⟩] true 0 "Nat" = 85
      ∧ grand_total [⟨3, PEOPLE⟩, ⟨2, ["Joe"]⟩] true 0 = 425 := by
  have hJ : exact_totals [⟨3, PEOPLE⟩, ⟨2, ["Joe"]⟩] true 0 "Joe" = 51 / 20 := by
    simp [exact_totals_eq, itemShare, PEOPLE, discounted_price, List.count_cons,
      List.count_nil]
    norm_num
  have hN : exact_totals [⟨3, PEOPLE⟩, ⟨2, ["Joe"]⟩] true 0 "Nic" = 17 / 20 := by
    simp [exact_totals_eq, itemShare, PEOPLE, discounted_price, List.count_cons,
      List.count_nil]
    norm_num
  have hT : exact_totals [⟨3, PEOPLE⟩, ⟨2, ["Joe"]⟩] true 0 "Nat" = 17 / 20 := by
    simp [exact_totals_eq, itemShare, PEOPLE, discounted_price, List.count_cons,
      List.count_nil]
    norm_num
  have fJ : final_totals [⟨3, PEOPLE⟩, ⟨2, ["Joe"]⟩] true 0 "Joe" = 255 := by
    unfold final_totals
    rw [hJ]
    norm_num [pyRound]
  have fN : final_totals [⟨3, PEOPLE⟩, ⟨2, ["Joe"]⟩] true 0 "Nic" = 85 := by
    unfold final_totals
    rw [hN]
    norm_num [pyRound]
  have fT : final_totals [⟨3, PEOPLE⟩, ⟨2, ["Joe"]⟩] true 0 "Nat" = 85 := by
    unfold final_totals
    rw [hT]
    norm_num [pyRound]
  refine ⟨fJ, fN, fT, ?_⟩
  rw [grand_total_eq, fJ, fN, fT]
  norm_num

/-- Claim C3 (confirmed). For price ≥ 0 and an extra discount in [0, 100],
`discounted_price` multiplies by 0.85 first when the flat discount is on, then
by (1 - extraDiscountPercent/100), composing multiplicatively with no rounding;
in particular discountedPrice(100, true, 0) = 85,
discountedPrice(100, true, 10) = 76.5 and discountedPrice(100, false, 0) = 100. -/
theorem discount_composition :
    (∀ (price extra_discount : ℚ) (apply_15 : Bool),
        0 ≤ price → 0 ≤ extra_discount → extra_discount ≤ 100 →
        discounted_price price apply_15 extra_discount
          = price * (if apply_15 then (85 : ℚ) / 100 else 1) * (1 - extra_discount / 100))
      ∧ discounted_price 100 true 0 = 85
      ∧ discounted_price 100 true 10 = 153 / 2
      ∧ discounted_price 100 false 0 = 100 := by
  refine ⟨fun price e a15 _ he0 _ => discounted_price_eq price e a15 he0, ?_, ?_, ?_⟩
  · norm_num [discounted_price]
  · norm_num [discounted_price]
  · norm_num [discounted_price]

/-- Witness for C3: the composition law instantiated at price 100 with the flat
discount on and a 10% extra discount. -/
theorem discount_composition_witness :
    discounted_price 100 true 10
      = 100 * (if true then (85 : ℚ) / 100 else 1) * (1 - 10 / 100) :=
  discount_composition.1 100 10 true (by norm_num) (by norm_num) (by norm_num)

/-- Claim C5 (confirmed). Allocating the single item (price, {A}) gives
participant A exactly round(discountedPrice(price) * 100) pennies and gives 0
to everyone else. -/
theorem single_participant_allocation (price : ℚ) (apply_15 : Bool)
    (extra_discount : ℚ) (A : String) (_hp : 0 ≤ price) :
    final_totals [⟨price, [A]⟩] apply_15 extra_discount A
        = pyRound (discounted_price price apply_15 extra_discount * 100)
      ∧ ∀ q, q ≠ A → final_totals [⟨price, [A]⟩] apply_15 extra_discount q = 0 := by
  constructor
  · unfold final_totals
    have hex : exact_totals [⟨price, [A]⟩] apply_15 extra_discount A
        = discounted_price price apply_15 extra_discount := by
      simp [exact_totals_eq, itemShare, List.count_cons, List.count_nil]
    rw [hex]
  · intro q hq
    unfold final_totals
    have hex : exact_totals [⟨price, [A]⟩] apply_15 extra_discount q = 0 := by
      simp [exact_totals_eq, itemShare, List.count_cons, List.count_nil, Ne.symm hq]
    rw [hex]
    norm_num [pyRound]

/-- Witness for C5: the single item (2.00, {Joe}) gives Joe the full rounded
discounted price and Nic nothing. -/
theorem single_participant_allocation_witness :
    final_totals [⟨2, ["Joe"]⟩] false 0 "Joe"
        = pyRound (discounted_price 2 false 0 * 100)
      ∧ final_totals [⟨2, ["Joe"]⟩] false 0 "Nic" = 0 := by
  have h := single_participant_allocation 2 false 0 "Joe" (by norm_num)
  exact ⟨h.1, h.2 "Nic" (by decide)⟩

/-- Claim C6 (confirmed). An item with an empty participant list contributes
nothing: inserting it anywhere in the item list changes no participant's
finalised total and leaves the grand total unchanged, so its cost is excluded
and the other items are allocated as if it were absent. -/
theorem empty_set_exclusion (pre post : List LineItem) (i : LineItem)
    (apply_15 : Bool) (extra_discount : ℚ) (h : i.split = []) :
    (∀ p, final_totals (pre ++ i :: post) apply_15 extra_discount p
        = final_totals (pre ++ post) apply_15 extra_discount p)
      ∧ grand_total (pre ++ i :: post) apply_15 extra_discount
        = grand_total (pre ++ post) apply_15 extra_discount := by
  have hpt : ∀ p, exact_totals (pre ++ i :: post) apply_15 extra_discount p
      = exact_totals (pre ++ post) apply_15 extra_discount p := by
    intro p
    simp [exact_totals_eq, List.map_append, List.sum_append, itemShare, h]
  have hft : ∀ p, final_totals (pre ++ i :: post) apply_15 extra_discount p
      = final_totals (pre ++ post) apply_15 extra_discount p := by
    intro p
    unfold final_totals
    rw [hpt p]
  refine ⟨hft, ?_⟩
  rw [grand_total_eq, grand_total_eq, hft "Joe", hft "Nic", hft "Nat"]

/-- Witness for C6: a £5 item assigned to nobody, inserted before a £2 item of
Joe's, changes neither Joe's total nor the grand total. -/
theorem empty_set_exclusion_witness :
    final_totals ([] ++ (⟨5, []⟩ : LineItem) :: [⟨2, ["Joe"]⟩]) false 0 "Joe"
        = final_totals ([] ++ [⟨2, ["Joe"]⟩]) false 0 "Joe"
      ∧ grand_total ([] ++ (⟨5, []⟩ : LineItem) :: [⟨2, ["Joe"]⟩]) false 0
        = grand_total ([] ++ [⟨2, ["Joe"]⟩]) false 0 := by
  have h := empty_set_exclusion [] [⟨2, ["Joe"]⟩] ⟨5, []⟩ false 0 rfl
  exact ⟨h.1 "Joe", h.2⟩

/-- Claim C7 (confirmed). For any finalised totals, payer in the roster, and
total equal to the sum of the totals, the Splitwise payload lists the payer
first with paid share equal to the grand total, records every participant's
owed share as that participant's allocated pennies, gives every non-payer a
paid share of 0.00, and the owed shares sum to the payer's paid share. -/
theorem splitwise_payload_shares (ft : String → ℤ) (payer : String)
    (total_pennies : ℤ) (hp : payer ∈ PEOPLE)
    (ht : total_pennies = (PEOPLE.map ft).sum) :
    ∃ first rest, create_splitwise_expense total_pennies payer ft = first :: rest
      ∧ first.user_id = payer
      ∧ first.paid_share = (total_pennies : ℚ) / 100
      ∧ (∀ u ∈ create_splitwise_expense total_pennies payer ft,
          u.owed_share = (ft u.user_id : ℚ) / 100)
      ∧ (∀ u ∈ rest, u.paid_share = 0)
      ∧ ((create_splitwise_expense total_pennies payer ft).map
          fun u => u.owed_share).sum
        = first.paid_share := by
  refine ⟨_, _, rfl, rfl, rfl, ?_, ?_, ?_⟩
  · intro u hu
    rcases List.mem_cons.mp hu with rfl | hu2
    · rfl
    · rcases List.mem_map.mp hu2 with ⟨person, _, rfl⟩
      rfl
  · intro u hu
    rcases List.mem_map.mp hu with ⟨person, _, rfl⟩
    rfl
  · simp only [PEOPLE, List.mem_cons, List.not_mem_nil, or_false] at hp
    subst ht
    rcases hp with rfl | rfl | rfl <;>
      simp [create_splitwise_expense, PEOPLE] <;> push_cast <;> ring

/-- Witness for C7: the payload for Joe paying 425 pennies split 255/85/85. -/
theorem splitwise_payload_shares_witness :
    ∃ first rest,
      create_splitwise_expense 425 "Joe"
          (fun p => if p = "Joe" then 255 else 85) = first :: rest
        ∧ first.user_id = "Joe"
        ∧ first.paid_share = ((425 : ℤ) : ℚ) / 100
        ∧ (∀ u ∈ create_splitwise_expense 425 "Joe"
            (fun p => if p = "Joe" then 255 else 85),
            u.owed_share = (Int.cast (if u.user_id = "Joe" then (255 : ℤ) else 85) : ℚ) / 100)
        ∧ (∀ u ∈ rest, u.paid_share = 0)
        ∧ ((create_splitwise_expense 425 "Joe"
            (fun p => if p = "Joe" then 255 else 85)).map
              fun u => u.owed_share).sum = first.paid_share :=
  splitwise_payload_shares (fun p => if p = "Joe" then 255 else 85) "Joe" 425
    (by simp [PEOPLE]) (by simp [PEOPLE])

/-- Claim C8 (confirmed). The Finalise Split loop is total on all item lists:
the guarded variant, which fails if the division by the participant count were
ever reached with a zero divisor, always succeeds and agrees with the actual
loop — empty participant lists are skipped before the division, so no division
by zero occurs, and zero-price, single-participant and tiny-price items are all
processed. -/
theorem allocation_totality (items : List LineItem) (apply_15 : Bool)
    (extra_discount : ℚ) (_hp : ∀ i ∈ items, 0 ≤ i.price) :
    exact_totalsChecked items apply_15 extra_discount
      = some (exact_totals items apply_15 extra_discount) := by
  unfold exact_totalsChecked exact_totals
  clear _hp
  suffices hgen : ∀ t : String → ℚ,
      items.foldlM (finaliseStepChecked apply_15 extra_discount) t
        = some (items.foldl (finaliseStep apply_15 extra_discount) t) by
    exact hgen _
  induction items with
  | nil => intro t; rfl
  | cons i rest ih =>
    intro t
    rw [List.foldlM_cons, List.foldl_cons]
    have hstep : finaliseStepChecked apply_15 extra_discount t i
        = some (finaliseStep apply_15 extra_discount t i) := by
      unfold finaliseStepChecked finaliseStep
      cases hemp : i.split.isEmpty with
      | true => simp
      | false =>
        have hne : i.split ≠ [] := by simpa [List.isEmpty_iff] using hemp
        have hlen : i.split.length ≠ 0 := fun hh => hne (List.length_eq_zero.mp hh)
        simp [hemp, hlen]
    rw [hstep]
    show List.foldlM (finaliseStepChecked apply_15 extra_discount)
        (finaliseStep apply_15 extra_discount t i) rest
      = some (List.foldl (finaliseStep apply_15 extra_discount)
          (finaliseStep apply_15 extra_discount t i) rest)
    exact ih (finaliseStep apply_15 extra_discount t i)


/-- Witness for C8: a zero-price item, a single-participant item and a one-penny
item shared three ways are all processed without reaching the failure case. -/
theorem allocation_totality_witness :
    exact_totalsChecked [⟨0, ["Joe", "Nic"]⟩, ⟨5, ["Joe"]⟩, ⟨1 / 100, PEOPLE⟩] false 0
      = some (exact_totals [⟨0, ["Joe", "Nic"]⟩, ⟨5, ["Joe"]⟩, ⟨1 / 100, PEOPLE⟩] false 0) :=
  allocation_totality _ false 0 (by
    intro i hi
    fin_cases hi <;> norm_num)

/-- Claim C9 (confirmed). The finalise computation is a pure function with no
randomness: two runs on equal items, discount flag and extra discount produce
identical per-participant totals. -/
theorem finalise_deterministic (items1 items2 : List LineItem) (a1 a2 : Bool)
    (e1 e2 : ℚ) (hitems : items1 = items2) (ha : a1 = a2) (he : e1 = e2) :
    ∀ p, final_totals items1 a1 e1 p = final_totals items2 a2 e2 p := by
  subst hitems
  subst ha
  subst he
  intro p
  rfl

/-- Witness for C9: two runs on the same single-item list agree on Joe. -/
theorem finalise_deterministic_witness :
    final_totals [⟨1, ["Joe"]⟩] true 0 "Joe" = final_totals [⟨1, ["Joe"]⟩] true 0 "Joe" :=
  finalise_deterministic [⟨1, ["Joe"]⟩] [⟨1, ["Joe"]⟩] true true 0 0 rfl rfl rfl "Joe"

/-- Claim C10 (confirmed). With non-negative prices and an extra discount in
[0, 100], every participant's finalised total is non-negative: the discounted
price is never negative, each accumulated share is non-negative, and rounding
preserves non-negativity. -/
theorem totals_nonneg (items : List LineItem) (apply_15 : Bool)
    (extra_discount : ℚ) (hp : ∀ i ∈ items, 0 ≤ i.price)
    (he0 : 0 ≤ extra_discount) (he1 : extra_discount ≤ 100) :
    ∀ p, 0 ≤ final_totals items apply_15 extra_discount p := by
  intro p
  apply pyRound_nonneg
  have hex : 0 ≤ exact_totals items apply_15 extra_discount p := by
    rw [exact_totals_eq]
    apply List.sum_nonneg
    intro x hx
    rcases List.mem_map.mp hx with ⟨i, hi, rfl⟩
    unfold itemShare
    split_ifs
    · exact le_refl 0
    · apply mul_nonneg
      · exact div_nonneg
          (discounted_price_nonneg i.price extra_discount apply_15 (hp i hi) he0 he1)
          (Nat.cast_nonneg _)
      · exact Nat.cast_nonneg _
  exact mul_nonneg hex (by norm_num)

/-- Witness for C10: the one-pound item shared by the roster, with both
discounts active, gives Joe a non-negative total. -/
theorem totals_nonneg_witness : 0 ≤ final_totals [⟨1, PEOPLE⟩] true 50 "Joe" :=
  totals_nonneg [⟨1, PEOPLE⟩] true 50
    (by intro i hi; fin_cases hi <;> norm_num) (by norm_num) (by norm_num) "Joe"

end Splitter
